import Mathlib

/-!
Shallow embedding of the resi-graph-builder core: the data model
(models.py), the in-memory repository queries (inmemory_repository.py),
and the two services (services.py): the resilience calculator and the
propagation graph builder.

Python strings (timestamps, identifiers) are modelled as Lean `String`;
Python's lexicographic string comparison is modelled by an executable
code-point comparison `strLt` over the underlying character list, so
that every definition evaluates inside the kernel.

Python functions that can raise (`min`/`max` of an empty sequence)
are modelled with `Option`: `none` is a raised `ValueError`, `some v`
a returned value.
-/

/-- Executable lexicographic comparison of character lists by code point,
modelling Python string comparison. -/
def charListLt : List Char → List Char → Bool
  | [], [] => false
  | [], _ :: _ => true
  | _ :: _, [] => false
  | a :: as, b :: bs => if a < b then true else if b < a then false else charListLt as bs

/-- Python string strict comparison a < b (lexicographic by code point). -/
def strLt (a b : String) : Bool := charListLt a.data b.data

/-- Python string comparison a <= b, derived: not (b < a). -/
def strLe (a b : String) : Bool := !(strLt b a)

/-- Python min over a list of Nat values: none on an empty list
(a raised ValueError), otherwise the running minimum. -/
def listMinNat : List Nat → Option Nat
  | [] => none
  | x :: xs => some (xs.foldl min x)

/-- Step of Python max over strings: keep the larger of the running value
and the next element. -/
def maxStrStep (a b : String) : String := if strLt a b then b else a

/-- Python max over a list of strings: none on an empty list
(a raised ValueError), otherwise the running maximum. -/
def listMaxStr : List String → Option String
  | [] => none
  | x :: xs => some (xs.foldl maxStrStep x)

/-- Python latest_timestamp.split("T")[0]: the prefix of the string before
the first 'T' character (the YYYY-MM-DD day part of an ISO 8601 timestamp). -/
def dayOf (s : String) : String := String.mk (s.data.takeWhile (fun ch => !(ch == 'T')))

/-- DungeonCompletion from models.py: the first time a character cleared a
specific dungeon at a specific difficulty. -/
structure DungeonCompletion where
  character_id : String
  dungeon_name : String
  difficulty_level : Nat
  first_completed : String
  run_id : String
deriving DecidableEq, Repr

/-- PropagationEdge from models.py: an influence edge between two characters. -/
structure PropagationEdge where
  source : String
  target : String
  dungeon : String
  run_id : String
deriving DecidableEq, Repr

/-- State of InMemoryDungeonRepository: the completions dictionary
(character_id -> dungeon_name -> level -> DungeonCompletion) flattened to a
list of records, and the rosters dictionary (run_id -> character list) as an
association list. The Python dict keys each completion by its own
(character_id, dungeon_name, difficulty_level) fields, so the flat list
carries the same information. -/
structure Repo where
  completions : List DungeonCompletion
  rosters : List (String × List String)
deriving Repr

/-- Entries of self._completions[character_id][dungeon]: the completions of
one character in one dungeon (one per difficulty level in the Python dict). -/
def Repo.charDungeonLevels (repo : Repo) (character_id dungeon : String) : List DungeonCompletion :=
  repo.completions.filter (fun comp =>
    comp.character_id == character_id && comp.dungeon_name == dungeon)

/-- InMemoryDungeonRepository.get_completion: the stored completion for
(character, dungeon, exact level), or none. -/
def Repo.get_completion (repo : Repo) (character_id dungeon : String) (level : Nat) :
    Option DungeonCompletion :=
  (repo.charDungeonLevels character_id dungeon).find? (fun comp =>
    comp.difficulty_level == level)

/-- InMemoryDungeonRepository.has_higher_completion: does the character have a
completion in the dungeon at a level strictly above the given one, first
completed strictly before the given instant. -/
def Repo.has_higher_completion (repo : Repo) (character_id dungeon : String)
    (level : Nat) (before : String) : Bool :=
  (repo.charDungeonLevels character_id dungeon).any (fun comp =>
    decide (level < comp.difficulty_level) && strLt comp.first_completed before)

/-- Qualifying condition of the inner loop of get_max_level_by_dungeon:
min_level <= level <= max_level and comp.first_completed < before. -/
def Qualifying (min_level max_level : Nat) (before : String) (comp : DungeonCompletion) : Prop :=
  min_level ≤ comp.difficulty_level ∧ comp.difficulty_level ≤ max_level ∧
    strLt comp.first_completed before = true

instance (min_level max_level : Nat) (before : String) (comp : DungeonCompletion) :
    Decidable (Qualifying min_level max_level before comp) := by
  unfold Qualifying; infer_instance

/-- Body of the inner loop of get_max_level_by_dungeon: keep the running
maximum over the qualifying completion levels. -/
def bestStep (min_level max_level : Nat) (before : String) (best : Nat)
    (comp : DungeonCompletion) : Nat :=
  if Qualifying min_level max_level before comp then max best comp.difficulty_level
  else best

/-- Inner loop of get_max_level_by_dungeon for one dungeon: the running
maximum (seeded 0) over the qualifying completion levels. -/
def Repo.bestLevel (repo : Repo) (character_id dungeon : String)
    (max_level min_level : Nat) (before : String) : Nat :=
  (repo.charDungeonLevels character_id dungeon).foldl
    (bestStep min_level max_level before) 0

/-- Python dict assignment result[k] = v on an association list: overwrite the
value when the key is present, else append the new binding. -/
def insertAssoc (m : List (String × Nat)) (k : String) (v : Nat) : List (String × Nat) :=
  if m.any (fun p => p.1 == k) then m.map (fun p => if p.1 == k then (k, v) else p)
  else m ++ [(k, v)]

/-- Body of the dungeon loop of get_max_level_by_dungeon: store the best
qualifying level under the dungeon key when it is positive. -/
def dictStep (repo : Repo) (character_id : String) (max_level min_level : Nat)
    (before : String) (result : List (String × Nat)) (dungeon : String) :
    List (String × Nat) :=
  let best := repo.bestLevel character_id dungeon max_level min_level before
  if 0 < best then insertAssoc result dungeon best else result

/-- InMemoryDungeonRepository.get_max_level_by_dungeon: for each dungeon in
the list, the best qualifying level; dungeons whose best is 0 are absent from
the resulting dict (modelled as an association list built by dict insertion). -/
def Repo.get_max_level_by_dungeon (repo : Repo) (character_id : String)
    (dungeons : List String) (max_level min_level : Nat) (before : String) :
    List (String × Nat) :=
  dungeons.foldl (dictStep repo character_id max_level min_level before) []

/-- Body of the loop of get_min_completion_date: keep the earliest
first_completed among completions at difficulty >= min_level. -/
def minDateStep (min_level : Nat) (earliest : Option String)
    (comp : DungeonCompletion) : Option String :=
  if min_level ≤ comp.difficulty_level then
    match earliest with
    | none => some comp.first_completed
    | some e => if strLt comp.first_completed e then some comp.first_completed else earliest
  else earliest

/-- InMemoryDungeonRepository.get_min_completion_date: earliest
first_completed among the character's completions of the dungeon at
difficulty >= min_level, or none. -/
def Repo.get_min_completion_date (repo : Repo) (character_id dungeon : String)
    (min_level : Nat) : Option String :=
  (repo.charDungeonLevels character_id dungeon).foldl (minDateStep min_level) none

/-- InMemoryDungeonRepository.get_roster: the characters of a run, or []. -/
def Repo.get_roster (repo : Repo) (run_id : String) : List String :=
  match repo.rosters.find? (fun p => p.1 == run_id) with
  | some p => p.2
  | none => []

/-- ResilienceCalculator.calculate_resilience_level: 0 when not every listed
dungeon is present in the per-dungeon maxima dict, otherwise the minimum of
the dict values. Result none models the ValueError that Python's min raises
on an empty sequence (reachable only with an empty dungeon list). -/
def calculate_resilience_level (repo : Repo) (character_id timestamp : String)
    (dungeons : List String) (max_level min_level : Nat) : Option Nat :=
  let max_levels := repo.get_max_level_by_dungeon character_id dungeons max_level min_level timestamp
  if max_levels.length < dungeons.length then some 0
  else listMinNat (max_levels.map Prod.snd)

/-- Loop of find_resilience_achievement_date collecting per-dungeon earliest
qualifying dates; none models the early return None when a dungeon has no
qualifying completion. -/
def collect_completion_dates (repo : Repo) (character_id : String) (min_level : Nat) :
    List String → Option (List String)
  | [] => some []
  | dungeon :: rest =>
    match repo.get_min_completion_date character_id dungeon min_level with
    | none => none
    | some t =>
      match collect_completion_dates repo character_id min_level rest with
      | none => none
      | some ts => some (t :: ts)

/-- ResilienceCalculator.find_resilience_achievement_date. Outer none models
the ValueError that Python's max raises on an empty sequence (reachable only
with an empty dungeon list); some none models the function returning None;
some (some d) models returning the day string d. -/
def find_resilience_achievement_date (repo : Repo) (character_id : String)
    (min_level : Nat) (dungeons : List String) : Option (Option String) :=
  match collect_completion_dates repo character_id min_level dungeons with
  | none => some none
  | some completion_dates =>
    match listMaxStr completion_dates with
    | none => none
    | some latest => some (some (dayOf latest))

/-- Inner comparison other_resilience >= target_level in build_edges. The
calculator is called with the default min_level = 18, as in the source. The
none branch (a raised ValueError) is unreachable here because build_edges
only calls the calculator from inside a loop over a nonempty dungeon list. -/
def resilienceAtLeast (repo : Repo) (other_id timestamp : String)
    (dungeons : List String) (max_level target_level : Nat) : Bool :=
  match calculate_resilience_level repo other_id timestamp dungeons max_level 18 with
  | some v => decide (target_level ≤ v)
  | none => false

/-- Roster scan of build_edges for one non-superseded completion: an edge for
every other roster member whose resilience at the completion instant reaches
the target level. -/
def rosterEdges (repo : Repo) (dungeons : List String) (target_level max_level : Nat)
    (character_id dungeon : String) (comp : DungeonCompletion) : List PropagationEdge :=
  (repo.get_roster comp.run_id).filterMap (fun other_id =>
    if other_id == character_id then none
    else if resilienceAtLeast repo other_id comp.first_completed dungeons max_level target_level
    then some ⟨other_id, character_id, dungeon, comp.run_id⟩
    else none)

/-- Body of the dungeon loop of build_edges for one character and dungeon:
skip when there is no completion at exactly the target level, skip when a
higher completion precedes it (supersession), else scan the roster. -/
def characterDungeonEdges (repo : Repo) (dungeons : List String)
    (target_level max_level : Nat) (character_id dungeon : String) : List PropagationEdge :=
  match repo.get_completion character_id dungeon target_level with
  | none => []
  | some comp =>
    if repo.has_higher_completion character_id dungeon target_level comp.first_completed
    then []
    else rosterEdges repo dungeons target_level max_level character_id dungeon comp

/-- Edges contributed by one character of build_edges, in dungeon order. -/
def characterEdges (repo : Repo) (dungeons : List String)
    (target_level max_level : Nat) (character_id : String) : List PropagationEdge :=
  dungeons.flatMap (characterDungeonEdges repo dungeons target_level max_level character_id)

/-- Python membership test character_id in resilient_timestamps (a dict from
character to date, modelled as an association list). -/
def isResilientKey (resilient_timestamps : List (String × String)) (character_id : String) : Bool :=
  resilient_timestamps.any (fun p => p.1 == character_id)

/-- Body of the character loop of build_edges: append the character's edges
to the bucket selected by its membership in resilient_timestamps. -/
def buildStep (repo : Repo) (resilient_timestamps : List (String × String))
    (dungeons : List String) (target_level max_level : Nat)
    (acc : List PropagationEdge × List PropagationEdge) (character_id : String) :
    List PropagationEdge × List PropagationEdge :=
  let es := characterEdges repo dungeons target_level max_level character_id
  if isResilientKey resilient_timestamps character_id
  then (acc.1 ++ es, acc.2)
  else (acc.1, acc.2 ++ es)

/-- PropagationGraphBuilder.build_edges: iterate the characters; each
character's edges go to the resilient bucket when the character is a key of
resilient_timestamps, else to the non-resilient bucket. (tqdm is a progress
display only.) -/
def build_edges (repo : Repo) (characters : List String)
    (resilient_timestamps : List (String × String)) (dungeons : List String)
    (target_level max_level : Nat) : List PropagationEdge × List PropagationEdge :=
  characters.foldl (buildStep repo resilient_timestamps dungeons target_level max_level) ([], [])

/-! Order lemmas for the code-point comparison. -/

theorem charListLt_cons_iff {x y : Char} {xs ys : List Char} :
    charListLt (x :: xs) (y :: ys) = true ↔ x < y ∨ (x = y ∧ charListLt xs ys = true) := by
  by_cases hxy : x < y
  · simp [charListLt, hxy]
  · by_cases hyx : y < x
    · simp only [charListLt, if_neg hxy, if_pos hyx]
      constructor
      · intro h; exact absurd h (by simp)
      · rintro (h | ⟨rfl, h⟩)
        · exact absurd h hxy
        · exact absurd hyx (lt_irrefl x)
    · have hxyeq : x = y := le_antisymm (le_of_not_lt hyx) (le_of_not_lt hxy)
      subst hxyeq
      simp [charListLt, hxy]

theorem charListLt_irrefl (l : List Char) : charListLt l l = false := by
  induction l with
  | nil => rfl
  | cons x xs ih =>
    rw [Bool.eq_false_iff]
    intro h
    rcases charListLt_cons_iff.mp h with h' | ⟨_, h'⟩
    · exact lt_irrefl x h'
    · rw [ih] at h'; exact Bool.false_ne_true h'

theorem charListLt_trans : ∀ {a b c : List Char},
    charListLt a b = true → charListLt b c = true → charListLt a c = true
  | [], _ :: _, _ :: _, _, _ => rfl
  | [], [], _, hab, _ => by cases hab
  | [], _ :: _, [], _, hbc => by cases hbc
  | _ :: _, [], _, hab, _ => by cases hab
  | _ :: _, _ :: _, [], _, hbc => by cases hbc
  | x :: xs, y :: ys, z :: zs, hab, hbc => by
    rcases charListLt_cons_iff.mp hab with h1 | ⟨rfl, h1⟩ <;>
      rcases charListLt_cons_iff.mp hbc with h2 | ⟨rfl, h2⟩
    · exact charListLt_cons_iff.mpr (Or.inl (lt_trans h1 h2))
    · exact charListLt_cons_iff.mpr (Or.inl h1)
    · exact charListLt_cons_iff.mpr (Or.inl h2)
    · exact charListLt_cons_iff.mpr (Or.inr ⟨rfl, charListLt_trans h1 h2⟩)

theorem charListLt_conn : ∀ {a b : List Char},
    charListLt a b = false → charListLt b a = false → a = b
  | [], [], _, _ => rfl
  | [], _ :: _, hab, _ => by cases hab
  | _ :: _, [], _, hba => by cases hba
  | x :: xs, y :: ys, hab, hba => by
    have hxy : ¬ x < y := fun h =>
      Bool.false_ne_true (hab ▸ charListLt_cons_iff.mpr (Or.inl h))
    have hyx : ¬ y < x := fun h =>
      Bool.false_ne_true (hba ▸ charListLt_cons_iff.mpr (Or.inl h))
    have hxyeq : x = y := le_antisymm (le_of_not_lt hyx) (le_of_not_lt hxy)
    subst hxyeq
    have h1 : charListLt xs ys = false := by
      rw [Bool.eq_false_iff]; intro h
      exact Bool.false_ne_true (hab ▸ charListLt_cons_iff.mpr (Or.inr ⟨rfl, h⟩))
    have h2 : charListLt ys xs = false := by
      rw [Bool.eq_false_iff]; intro h
      exact Bool.false_ne_true (hba ▸ charListLt_cons_iff.mpr (Or.inr ⟨rfl, h⟩))
    rw [charListLt_conn h1 h2]

theorem strLt_irrefl (a : String) : strLt a a = false := charListLt_irrefl a.data

theorem strLt_trans {a b c : String} (hab : strLt a b = true) (hbc : strLt b c = true) :
    strLt a c = true := charListLt_trans hab hbc

theorem strLt_conn {a b : String} (hab : strLt a b = false) (hba : strLt b a = false) :
    a = b := by
  have h : a.data = b.data := charListLt_conn hab hba
  cases a; cases b; exact congrArg String.mk h

theorem strLt_asymm {a b : String} (hab : strLt a b = true) : strLt b a = false := by
  rw [Bool.eq_false_iff]; intro h
  have := strLt_trans hab h
  rw [strLt_irrefl] at this
  exact Bool.false_ne_true this

/-! Characterization of the running minimum over Nat lists. -/

theorem foldl_min_mem (xs : List Nat) : ∀ x : Nat, xs.foldl min x ∈ x :: xs := by
  induction xs with
  | nil => intro x; exact List.mem_singleton.mpr rfl
  | cons y ys ih =>
    intro x
    simp only [List.foldl]
    rcases List.mem_cons.mp (ih (min x y)) with h' | h'
    · rcases min_choice x y with hm | hm
      · rw [h', hm]; exact List.mem_cons_self _ _
      · rw [h', hm]; exact List.mem_cons_of_mem _ (List.mem_cons_self _ _)
    · exact List.mem_cons_of_mem _ (List.mem_cons_of_mem _ h')

theorem foldl_min_le (xs : List Nat) : ∀ x a : Nat, a ∈ x :: xs → xs.foldl min x ≤ a := by
  induction xs with
  | nil =>
    intro x a ha
    rw [List.mem_singleton] at ha
    subst ha; exact le_refl _
  | cons y ys ih =>
    intro x a ha
    simp only [List.foldl]
    rcases List.mem_cons.mp ha with rfl | ha'
    · exact le_trans (ih (min a y) (min a y) (List.mem_cons_self _ _)) (min_le_left a y)
    · rcases List.mem_cons.mp ha' with rfl | ha''
      · exact le_trans (ih (min x a) (min x a) (List.mem_cons_self _ _)) (min_le_right x a)
      · exact ih (min x y) a (List.mem_cons_of_mem _ ha'')

theorem listMinNat_mem {l : List Nat} {m : Nat} (h : listMinNat l = some m) : m ∈ l := by
  cases l with
  | nil => cases h
  | cons x xs =>
    simp only [listMinNat, Option.some.injEq] at h
    subst h; exact foldl_min_mem xs x

theorem listMinNat_le {l : List Nat} {m : Nat} (h : listMinNat l = some m) :
    ∀ a ∈ l, m ≤ a := by
  cases l with
  | nil => cases h
  | cons x xs =>
    simp only [listMinNat, Option.some.injEq] at h
    subst h; exact fun a ha => foldl_min_le xs x a ha

theorem listMinNat_isSome {l : List Nat} (h : l ≠ []) : ∃ m, listMinNat l = some m := by
  cases l with
  | nil => exact absurd rfl h
  | cons x xs => exact ⟨xs.foldl min x, rfl⟩

/-! Characterization of the running maximum over string lists. -/

theorem foldl_maxStr_mem (xs : List String) : ∀ x : String,
    xs.foldl maxStrStep x ∈ x :: xs := by
  induction xs with
  | nil => intro x; exact List.mem_singleton.mpr rfl
  | cons b bs ih =>
    intro x
    simp only [List.foldl]
    rcases List.mem_cons.mp (ih (maxStrStep x b)) with h' | h'
    · rw [h']
      unfold maxStrStep
      by_cases hxb : strLt x b = true
      · rw [if_pos hxb]; exact List.mem_cons_of_mem _ (List.mem_cons_self _ _)
      · rw [if_neg hxb]; exact List.mem_cons_self _ _
    · exact List.mem_cons_of_mem _ (List.mem_cons_of_mem _ h')

theorem foldl_maxStr_seed (xs : List String) : ∀ x : String,
    strLt (xs.foldl maxStrStep x) x = false := by
  induction xs with
  | nil => intro x; exact strLt_irrefl x
  | cons b bs ih =>
    intro x
    simp only [List.foldl]
    by_cases hxb : strLt x b = true
    · have hseed := ih (maxStrStep x b)
      rw [show maxStrStep x b = b from if_pos hxb] at hseed ⊢
      rw [Bool.eq_false_iff]
      intro hrx
      have := strLt_trans hrx hxb
      rw [hseed] at this
      exact Bool.false_ne_true this
    · have hseed := ih (maxStrStep x b)
      rwa [show maxStrStep x b = x from if_neg hxb] at hseed ⊢

theorem foldl_maxStr_bound (xs : List String) : ∀ x : String,
    ∀ t ∈ xs, strLt (xs.foldl maxStrStep x) t = false := by
  induction xs with
  | nil => intro x t ht; cases ht
  | cons b bs ih =>
    intro x t ht
    simp only [List.foldl]
    rcases List.mem_cons.mp ht with rfl | ht'
    · by_cases hxb : strLt x t = true
      · rw [show maxStrStep x t = t from if_pos hxb]
        exact foldl_maxStr_seed bs t
      · have hseed := foldl_maxStr_seed bs (maxStrStep x t)
        rw [show maxStrStep x t = x from if_neg hxb] at hseed ⊢
        rw [Bool.eq_false_iff]
        intro hrt
        by_cases htx : strLt t x = true
        · have := strLt_trans hrt htx
          rw [hseed] at this
          exact Bool.false_ne_true this
        · have hxt : x = t :=
            strLt_conn (Bool.eq_false_iff.mpr hxb) (Bool.eq_false_iff.mpr htx)
          rw [← hxt, hseed] at hrt
          exact Bool.false_ne_true hrt
    · exact ih (maxStrStep x b) t ht'

theorem listMaxStr_spec {l : List String} {m : String} (h : listMaxStr l = some m) :
    m ∈ l ∧ ∀ t ∈ l, strLt m t = false := by
  cases l with
  | nil => cases h
  | cons x xs =>
    simp only [listMaxStr, Option.some.injEq] at h
    subst h
    refine ⟨foldl_maxStr_mem xs x, ?_⟩
    intro t ht
    rcases List.mem_cons.mp ht with rfl | ht'
    · exact foldl_maxStr_seed xs t
    · exact foldl_maxStr_bound xs x t ht'

theorem listMaxStr_isSome {l : List String} (h : l ≠ []) : ∃ m, listMaxStr l = some m := by
  cases l with
  | nil => exact absurd rfl h
  | cons x xs => exact ⟨xs.foldl maxStrStep x, rfl⟩

/-! Characterization of the earliest-qualifying-date fold. -/

theorem minDateStep_some (minL : Nat) (a : String) (comp : DungeonCompletion) :
    minDateStep minL (some a) comp =
      if minL ≤ comp.difficulty_level then
        (if strLt comp.first_completed a = true then some comp.first_completed else some a)
      else some a := by
  by_cases hq : minL ≤ comp.difficulty_level
  · simp only [minDateStep, if_pos hq]
  · simp only [minDateStep, if_neg hq]

theorem minDateStep_none (minL : Nat) (comp : DungeonCompletion) :
    minDateStep minL none comp =
      if minL ≤ comp.difficulty_level then some comp.first_completed else none := by
  by_cases hq : minL ≤ comp.difficulty_level
  · simp only [minDateStep, if_pos hq]
  · simp only [minDateStep, if_neg hq]

theorem foldl_minDate_le (minL : Nat) (l : List DungeonCompletion) :
    ∀ a e : String, l.foldl (minDateStep minL) (some a) = some e →
      e = a ∨ strLt e a = true := by
  induction l with
  | nil =>
    intro a e h
    exact Or.inl (Option.some.inj h).symm
  | cons comp l ih =>
    intro a e h
    simp only [List.foldl, minDateStep_some] at h
    by_cases hq : minL ≤ comp.difficulty_level
    · rw [if_pos hq] at h
      by_cases hlt : strLt comp.first_completed a = true
      · rw [if_pos hlt] at h
        rcases ih comp.first_completed e h with rfl | h'
        · exact Or.inr hlt
        · exact Or.inr (strLt_trans h' hlt)
      · rw [if_neg hlt] at h
        exact ih a e h
    · rw [if_neg hq] at h
      exact ih a e h

theorem foldl_minDate_src (minL : Nat) (l : List DungeonCompletion) :
    ∀ a e : String, l.foldl (minDateStep minL) (some a) = some e →
      e = a ∨ ∃ comp ∈ l, minL ≤ comp.difficulty_level ∧ comp.first_completed = e := by
  induction l with
  | nil =>
    intro a e h
    exact Or.inl (Option.some.inj h).symm
  | cons comp l ih =>
    intro a e h
    simp only [List.foldl, minDateStep_some] at h
    by_cases hq : minL ≤ comp.difficulty_level
    · rw [if_pos hq] at h
      by_cases hlt : strLt comp.first_completed a = true
      · rw [if_pos hlt] at h
        rcases ih comp.first_completed e h with rfl | ⟨c2, hc2, hq2, he2⟩
        · exact Or.inr ⟨comp, List.mem_cons_self _ _, hq, rfl⟩
        · exact Or.inr ⟨c2, List.mem_cons_of_mem _ hc2, hq2, he2⟩
      · rw [if_neg hlt] at h
        rcases ih a e h with h' | ⟨c2, hc2, hq2, he2⟩
        · exact Or.inl h'
        · exact Or.inr ⟨c2, List.mem_cons_of_mem _ hc2, hq2, he2⟩
    · rw [if_neg hq] at h
      rcases ih a e h with h' | ⟨c2, hc2, hq2, he2⟩
      · exact Or.inl h'
      · exact Or.inr ⟨c2, List.mem_cons_of_mem _ hc2, hq2, he2⟩

theorem foldl_minDate_lb (minL : Nat) (l : List DungeonCompletion) :
    ∀ a e : String, l.foldl (minDateStep minL) (some a) = some e →
      ∀ comp ∈ l, minL ≤ comp.difficulty_level → strLt comp.first_completed e = false := by
  induction l with
  | nil => intro a e _ comp hc; cases hc
  | cons comp l ih =>
    intro a e h c hc hcq
    simp only [List.foldl, minDateStep_some] at h
    by_cases hq : minL ≤ comp.difficulty_level
    · rw [if_pos hq] at h
      by_cases hlt : strLt comp.first_completed a = true
      · rw [if_pos hlt] at h
        rcases List.mem_cons.mp hc with hceq | hc'
        · rw [hceq]
          rcases foldl_minDate_le minL l comp.first_completed e h with heq | h'
          · rw [heq]; exact strLt_irrefl _
          · exact strLt_asymm h'
        · exact ih comp.first_completed e h c hc' hcq
      · rw [if_neg hlt] at h
        rcases List.mem_cons.mp hc with hceq | hc'
        · rw [hceq]
          rcases foldl_minDate_le minL l a e h with heq | h'
          · rw [heq]; exact Bool.eq_false_iff.mpr hlt
          · rw [Bool.eq_false_iff]
            intro hce
            exact hlt (strLt_trans hce h')
        · exact ih a e h c hc' hcq
    · rw [if_neg hq] at h
      rcases List.mem_cons.mp hc with hceq | hc'
      · rw [hceq] at hcq; exact absurd hcq hq
      · exact ih a e h c hc' hcq

theorem foldl_minDate_isSome (minL : Nat) (l : List DungeonCompletion) :
    ∀ a : String, ∃ e, l.foldl (minDateStep minL) (some a) = some e := by
  induction l with
  | nil => intro a; exact ⟨a, rfl⟩
  | cons comp l ih =>
    intro a
    simp only [List.foldl, minDateStep_some]
    by_cases hq : minL ≤ comp.difficulty_level
    · rw [if_pos hq]
      by_cases hlt : strLt comp.first_completed a = true
      · rw [if_pos hlt]; exact ih comp.first_completed
      · rw [if_neg hlt]; exact ih a
    · rw [if_neg hq]; exact ih a

theorem foldl_minDate_none_iff (minL : Nat) (l : List DungeonCompletion) :
    l.foldl (minDateStep minL) none = none ↔
      ∀ comp ∈ l, ¬ minL ≤ comp.difficulty_level := by
  induction l with
  | nil => simp
  | cons comp l ih =>
    simp only [List.foldl, minDateStep_none]
    by_cases hq : minL ≤ comp.difficulty_level
    · rw [if_pos hq]
      constructor
      · intro h
        obtain ⟨e, he⟩ := foldl_minDate_isSome minL l comp.first_completed
        rw [he] at h; cases h
      · intro h
        exact absurd hq (h comp (List.mem_cons_self _ _))
    · rw [if_neg hq, ih]
      constructor
      · intro h c hc
        rcases List.mem_cons.mp hc with rfl | hc'
        · exact hq
        · exact h c hc'
      · intro h c hc
        exact h c (List.mem_cons_of_mem _ hc)

theorem foldl_minDate_none_src (minL : Nat) (l : List DungeonCompletion) :
    ∀ e : String, l.foldl (minDateStep minL) none = some e →
      ∃ comp ∈ l, minL ≤ comp.difficulty_level ∧ comp.first_completed = e := by
  induction l with
  | nil => intro e h; cases h
  | cons comp l ih =>
    intro e h
    simp only [List.foldl, minDateStep_none] at h
    by_cases hq : minL ≤ comp.difficulty_level
    · rw [if_pos hq] at h
      rcases foldl_minDate_src minL l comp.first_completed e h with heq | ⟨c2, hc2, hq2, he2⟩
      · exact ⟨comp, List.mem_cons_self _ _, hq, heq.symm⟩
      · exact ⟨c2, List.mem_cons_of_mem _ hc2, hq2, he2⟩
    · rw [if_neg hq] at h
      obtain ⟨c2, hc2, hq2, he2⟩ := ih e h
      exact ⟨c2, List.mem_cons_of_mem _ hc2, hq2, he2⟩

theorem foldl_minDate_none_lb (minL : Nat) (l : List DungeonCompletion) :
    ∀ e : String, l.foldl (minDateStep minL) none = some e →
      ∀ comp ∈ l, minL ≤ comp.difficulty_level → strLt comp.first_completed e = false := by
  induction l with
  | nil => intro e _ comp hc; cases hc
  | cons comp l ih =>
    intro e h c hc hcq
    simp only [List.foldl, minDateStep_none] at h
    by_cases hq : minL ≤ comp.difficulty_level
    · rw [if_pos hq] at h
      rcases List.mem_cons.mp hc with hceq | hc'
      · rw [hceq]
        rcases foldl_minDate_le minL l comp.first_completed e h with heq | h'
        · rw [heq]; exact strLt_irrefl _
        · exact strLt_asymm h'
      · exact foldl_minDate_lb minL l comp.first_completed e h c hc' hcq
    · rw [if_neg hq] at h
      rcases List.mem_cons.mp hc with hceq | hc'
      · rw [hceq] at hcq; exact absurd hcq hq
      · exact ih e h c hc' hcq

/-! Corollaries for get_min_completion_date. -/

theorem gmcd_none_iff (repo : Repo) (cid dungeon : String) (minL : Nat) :
    repo.get_min_completion_date cid dungeon minL = none ↔
      ∀ comp ∈ repo.charDungeonLevels cid dungeon, ¬ minL ≤ comp.difficulty_level :=
  foldl_minDate_none_iff minL (repo.charDungeonLevels cid dungeon)

theorem gmcd_some_src (repo : Repo) (cid dungeon : String) (minL : Nat) (e : String)
    (h : repo.get_min_completion_date cid dungeon minL = some e) :
    ∃ comp ∈ repo.charDungeonLevels cid dungeon,
      minL ≤ comp.difficulty_level ∧ comp.first_completed = e :=
  foldl_minDate_none_src minL (repo.charDungeonLevels cid dungeon) e h

theorem gmcd_some_lb (repo : Repo) (cid dungeon : String) (minL : Nat) (e : String)
    (h : repo.get_min_completion_date cid dungeon minL = some e) :
    ∀ comp ∈ repo.charDungeonLevels cid dungeon,
      minL ≤ comp.difficulty_level → strLt comp.first_completed e = false :=
  foldl_minDate_none_lb minL (repo.charDungeonLevels cid dungeon) e h

/-! Characterization of the best-qualifying-level fold. -/

theorem foldl_best_seed_le (minL maxL : Nat) (before : String) (l : List DungeonCompletion) :
    ∀ b : Nat, b ≤ l.foldl (bestStep minL maxL before) b := by
  induction l with
  | nil => intro b; exact le_refl b
  | cons comp l ih =>
    intro b
    simp only [List.foldl]
    refine le_trans ?_ (ih (bestStep minL maxL before b comp))
    unfold bestStep
    by_cases hq : Qualifying minL maxL before comp
    · rw [if_pos hq]; exact le_max_left _ _
    · rw [if_neg hq]

theorem foldl_best_qual_le (minL maxL : Nat) (before : String) (l : List DungeonCompletion) :
    ∀ b : Nat, ∀ comp ∈ l, Qualifying minL maxL before comp →
      comp.difficulty_level ≤ l.foldl (bestStep minL maxL before) b := by
  induction l with
  | nil => intro b comp hc; cases hc
  | cons c2 l ih =>
    intro b comp hc hq
    simp only [List.foldl]
    rcases List.mem_cons.mp hc with hceq | hc'
    · refine le_trans ?_ (foldl_best_seed_le minL maxL before l (bestStep minL maxL before b c2))
      rw [hceq]
      unfold bestStep
      rw [if_pos (hceq ▸ hq)]
      exact le_max_right _ _
    · exact ih (bestStep minL maxL before b c2) comp hc' hq

theorem foldl_best_cases (minL maxL : Nat) (before : String) (l : List DungeonCompletion) :
    ∀ b : Nat, l.foldl (bestStep minL maxL before) b = b ∨
      ∃ comp ∈ l, Qualifying minL maxL before comp ∧
        comp.difficulty_level = l.foldl (bestStep minL maxL before) b := by
  induction l with
  | nil => intro b; exact Or.inl rfl
  | cons c2 l ih =>
    intro b
    simp only [List.foldl]
    rcases ih (bestStep minL maxL before b c2) with heq | ⟨comp, hm, hq, hlvl⟩
    · rw [heq]
      unfold bestStep
      by_cases hq2 : Qualifying minL maxL before c2
      · rw [if_pos hq2]
        rcases max_choice b c2.difficulty_level with hm | hm
        · exact Or.inl hm
        · exact Or.inr ⟨c2, List.mem_cons_self _ _, hq2, hm.symm⟩
      · rw [if_neg hq2]
        exact Or.inl rfl
    · exact Or.inr ⟨comp, List.mem_cons_of_mem _ hm, hq, hlvl⟩

/-! Corollaries for bestLevel. -/

theorem bestLevel_qual_le (repo : Repo) (cid dungeon : String) (maxL minL : Nat)
    (before : String) {comp : DungeonCompletion}
    (hm : comp ∈ repo.charDungeonLevels cid dungeon)
    (hq : Qualifying minL maxL before comp) :
    comp.difficulty_level ≤ repo.bestLevel cid dungeon maxL minL before :=
  foldl_best_qual_le minL maxL before (repo.charDungeonLevels cid dungeon) 0 comp hm hq

theorem bestLevel_zero_of_none (repo : Repo) (cid dungeon : String) (maxL minL : Nat)
    (before : String)
    (hnq : ∀ comp ∈ repo.charDungeonLevels cid dungeon, ¬ Qualifying minL maxL before comp) :
    repo.bestLevel cid dungeon maxL minL before = 0 := by
  rcases foldl_best_cases minL maxL before (repo.charDungeonLevels cid dungeon) 0 with h | ⟨comp, hm, hq, _⟩
  · exact h
  · exact absurd hq (hnq comp hm)

theorem bestLevel_pos_src (repo : Repo) (cid dungeon : String) (maxL minL : Nat)
    (before : String)
    (h : 0 < repo.bestLevel cid dungeon maxL minL before) :
    ∃ comp ∈ repo.charDungeonLevels cid dungeon,
      Qualifying minL maxL before comp ∧
        comp.difficulty_level = repo.bestLevel cid dungeon maxL minL before := by
  rcases foldl_best_cases minL maxL before (repo.charDungeonLevels cid dungeon) 0 with heq | hx
  · rw [Repo.bestLevel] at h
    rw [heq] at h
    cases h
  · exact hx

/-! Properties of dict insertion and of get_max_level_by_dungeon. -/

theorem any_key_eq_false_iff (m : List (String × Nat)) (k : String) :
    m.any (fun p => p.1 == k) = false ↔ k ∉ m.map Prod.fst := by
  rw [← Bool.not_eq_true, List.any_eq_true]
  constructor
  · intro h hk
    rcases List.mem_map.mp hk with ⟨p, hp, hpk⟩
    exact h ⟨p, hp, beq_iff_eq.mpr hpk⟩
  · intro h ⟨p, hp, hpk⟩
    exact h (List.mem_map.mpr ⟨p, hp, beq_iff_eq.mp hpk⟩)

theorem insertAssoc_keys_of_mem {m : List (String × Nat)} {k : String} (v : Nat)
    (h : m.any (fun p => p.1 == k) = true) :
    (insertAssoc m k v).map Prod.fst = m.map Prod.fst := by
  unfold insertAssoc
  rw [if_pos h, List.map_map]
  refine List.map_congr_left ?_
  intro p _
  by_cases hpk : p.1 == k
  · simp only [Function.comp_apply, if_pos hpk]
    exact (beq_iff_eq.mp hpk).symm
  · simp only [Function.comp_apply, if_neg hpk]

theorem insertAssoc_keys_of_not_mem {m : List (String × Nat)} {k : String} (v : Nat)
    (h : m.any (fun p => p.1 == k) = false) :
    (insertAssoc m k v).map Prod.fst = m.map Prod.fst ++ [k] := by
  unfold insertAssoc
  rw [if_neg (by rw [h]; exact Bool.false_ne_true), List.map_append]
  rfl

theorem insertAssoc_keys_nodup {m : List (String × Nat)} {k : String} (v : Nat)
    (h : (m.map Prod.fst).Nodup) : ((insertAssoc m k v).map Prod.fst).Nodup := by
  cases hmem : m.any (fun p => p.1 == k) with
  | true => rw [insertAssoc_keys_of_mem v hmem]; exact h
  | false =>
    rw [insertAssoc_keys_of_not_mem v hmem]
    rw [List.nodup_append]
    exact ⟨h, List.nodup_singleton k, by
      intro a ha hb
      rw [List.mem_singleton] at hb
      subst hb
      exact (any_key_eq_false_iff m a).mp hmem ha⟩

theorem insertAssoc_mem {m : List (String × Nat)} {k : String} {v : Nat}
    {p : String × Nat} (h : p ∈ insertAssoc m k v) : p ∈ m ∨ p = (k, v) := by
  unfold insertAssoc at h
  by_cases hmem : m.any (fun p => p.1 == k) = true
  · rw [if_pos hmem] at h
    rcases List.mem_map.mp h with ⟨q, hq, hqp⟩
    by_cases hqk : q.1 == k
    · rw [if_pos hqk] at hqp
      exact Or.inr hqp.symm
    · rw [if_neg hqk] at hqp
      exact Or.inl (hqp ▸ hq)
  · rw [if_neg hmem] at h
    rcases List.mem_append.mp h with h' | h'
    · exact Or.inl h'
    · exact Or.inr (List.mem_singleton.mp h')

theorem insertAssoc_of_not_mem {m : List (String × Nat)} {k : String} (v : Nat)
    (h : k ∉ m.map Prod.fst) : insertAssoc m k v = m ++ [(k, v)] := by
  unfold insertAssoc
  rw [if_neg (by rw [(any_key_eq_false_iff m k).mpr h]; exact Bool.false_ne_true)]

theorem dictStep_eq (repo : Repo) (cid : String) (maxL minL : Nat) (before : String)
    (acc : List (String × Nat)) (d : String) :
    dictStep repo cid maxL minL before acc d =
      if 0 < repo.bestLevel cid d maxL minL before
      then insertAssoc acc d (repo.bestLevel cid d maxL minL before) else acc := rfl

theorem foldl_dict_mem (repo : Repo) (cid : String) (maxL minL : Nat) (before : String)
    (dungeons : List String) :
    ∀ (acc : List (String × Nat)) (p : String × Nat),
      p ∈ dungeons.foldl (dictStep repo cid maxL minL before) acc →
        p ∈ acc ∨ ∃ d ∈ dungeons, p = (d, repo.bestLevel cid d maxL minL before) ∧
          0 < repo.bestLevel cid d maxL minL before := by
  induction dungeons with
  | nil => intro acc p h; exact Or.inl h
  | cons d ds ih =>
    intro acc p h
    simp only [List.foldl] at h
    rcases ih (dictStep repo cid maxL minL before acc d) p h with h' | ⟨d2, hd2, hp⟩
    · rw [dictStep_eq] at h'
      by_cases hb : 0 < repo.bestLevel cid d maxL minL before
      · rw [if_pos hb] at h'
        rcases insertAssoc_mem h' with h'' | h''
        · exact Or.inl h''
        · exact Or.inr ⟨d, List.mem_cons_self _ _, h'', hb⟩
      · rw [if_neg hb] at h'
        exact Or.inl h'
    · exact Or.inr ⟨d2, List.mem_cons_of_mem _ hd2, hp⟩

theorem foldl_dict_keys_nodup (repo : Repo) (cid : String) (maxL minL : Nat) (before : String)
    (dungeons : List String) :
    ∀ acc : List (String × Nat), (acc.map Prod.fst).Nodup →
      ((dungeons.foldl (dictStep repo cid maxL minL before) acc).map Prod.fst).Nodup := by
  induction dungeons with
  | nil => intro acc h; exact h
  | cons d ds ih =>
    intro acc h
    simp only [List.foldl]
    refine ih _ ?_
    rw [dictStep_eq]
    by_cases hb : 0 < repo.bestLevel cid d maxL minL before
    · rw [if_pos hb]
      exact insertAssoc_keys_nodup _ h
    · rw [if_neg hb]
      exact h

theorem foldl_dict_not_key (repo : Repo) (cid : String) (maxL minL : Nat) (before : String)
    (dungeons : List String) (d0 : String)
    (hbest0 : repo.bestLevel cid d0 maxL minL before = 0) :
    ∀ acc : List (String × Nat), d0 ∉ acc.map Prod.fst →
      d0 ∉ (dungeons.foldl (dictStep repo cid maxL minL before) acc).map Prod.fst := by
  induction dungeons with
  | nil => intro acc h; exact h
  | cons d ds ih =>
    intro acc h
    simp only [List.foldl]
    refine ih _ ?_
    rw [dictStep_eq]
    by_cases hb : 0 < repo.bestLevel cid d maxL minL before
    · rw [if_pos hb]
      cases hmem : acc.any (fun p => p.1 == d) with
      | true => rw [insertAssoc_keys_of_mem _ hmem]; exact h
      | false =>
        rw [insertAssoc_keys_of_not_mem _ hmem]
        intro hc
        rcases List.mem_append.mp hc with hc' | hc'
        · exact h hc'
        · rw [List.mem_singleton] at hc'
          rw [hc'] at hbest0
          rw [hbest0] at hb
          exact lt_irrefl 0 hb
    · rw [if_neg hb]
      exact h

theorem foldl_dict_complete (repo : Repo) (cid : String) (maxL minL : Nat) (before : String)
    (dungeons : List String) :
    ∀ acc : List (String × Nat), dungeons.Nodup →
      (∀ d ∈ dungeons, 0 < repo.bestLevel cid d maxL minL before) →
      (∀ d ∈ dungeons, d ∉ acc.map Prod.fst) →
      dungeons.foldl (dictStep repo cid maxL minL before) acc =
        acc ++ dungeons.map (fun d => (d, repo.bestLevel cid d maxL minL before)) := by
  induction dungeons with
  | nil => intro acc _ _ _; rw [List.map_nil, List.append_nil]; rfl
  | cons d ds ih =>
    intro acc hnd hpos hkeys
    simp only [List.foldl]
    have hstep : dictStep repo cid maxL minL before acc d =
        acc ++ [(d, repo.bestLevel cid d maxL minL before)] := by
      rw [dictStep_eq, if_pos (hpos d (List.mem_cons_self _ _))]
      exact insertAssoc_of_not_mem _ (hkeys d (List.mem_cons_self _ _))
    rw [hstep]
    rw [ih (acc ++ [(d, repo.bestLevel cid d maxL minL before)])
      (List.Nodup.of_cons hnd)
      (fun d' hd' => hpos d' (List.mem_cons_of_mem _ hd'))
      ?_]
    · rw [List.map_cons, List.append_assoc]
      rfl
    · intro d' hd'
      rw [List.map_append]
      intro hc
      rcases List.mem_append.mp hc with hc' | hc'
      · exact hkeys d' (List.mem_cons_of_mem _ hd') hc'
      · rw [show ([(d, repo.bestLevel cid d maxL minL before)].map Prod.fst) = [d] from rfl,
          List.mem_singleton] at hc'
        rw [hc'] at hd'
        exact (List.nodup_cons.mp hnd).1 hd'

/-! Corollaries for get_max_level_by_dungeon with the empty accumulator. -/

theorem gml_mem {repo : Repo} {cid : String} {maxL minL : Nat} {before : String}
    {dungeons : List String} {p : String × Nat}
    (h : p ∈ repo.get_max_level_by_dungeon cid dungeons maxL minL before) :
    ∃ d ∈ dungeons, p = (d, repo.bestLevel cid d maxL minL before) ∧
      0 < repo.bestLevel cid d maxL minL before := by
  rcases foldl_dict_mem repo cid maxL minL before dungeons [] p h with h' | h'
  · cases h'
  · exact h'

theorem gml_keys_nodup (repo : Repo) (cid : String) (maxL minL : Nat) (before : String)
    (dungeons : List String) :
    ((repo.get_max_level_by_dungeon cid dungeons maxL minL before).map Prod.fst).Nodup :=
  foldl_dict_keys_nodup repo cid maxL minL before dungeons [] List.nodup_nil

theorem gml_keys_sub {repo : Repo} {cid : String} {maxL minL : Nat} {before : String}
    {dungeons : List String} {k : String}
    (h : k ∈ (repo.get_max_level_by_dungeon cid dungeons maxL minL before).map Prod.fst) :
    k ∈ dungeons := by
  rcases List.mem_map.mp h with ⟨p, hp, hpk⟩
  rcases gml_mem hp with ⟨d, hd, hpd, _⟩
  rw [hpd] at hpk
  rw [← hpk]
  exact hd

theorem gml_not_key (repo : Repo) (cid : String) (maxL minL : Nat) (before : String)
    (dungeons : List String) (d0 : String)
    (hbest0 : repo.bestLevel cid d0 maxL minL before = 0) :
    d0 ∉ (repo.get_max_level_by_dungeon cid dungeons maxL minL before).map Prod.fst :=
  foldl_dict_not_key repo cid maxL minL before dungeons d0 hbest0 [] (by intro h; cases h)

theorem gml_complete (repo : Repo) (cid : String) (maxL minL : Nat) (before : String)
    (dungeons : List String) (hnd : dungeons.Nodup)
    (hpos : ∀ d ∈ dungeons, 0 < repo.bestLevel cid d maxL minL before) :
    repo.get_max_level_by_dungeon cid dungeons maxL minL before =
      dungeons.map (fun d => (d, repo.bestLevel cid d maxL minL before)) := by
  have h := foldl_dict_complete repo cid maxL minL before dungeons [] hnd hpos
    (by intro d _ hc; cases hc)
  rw [List.nil_append] at h
  exact h

/-! Counting lemmas for the length comparison in calculate_resilience_level. -/

theorem nodup_sub_missing_lt {ks dungeons : List String} (hnd : ks.Nodup)
    (hsub : ∀ k ∈ ks, k ∈ dungeons) {d0 : String} (hd0 : d0 ∈ dungeons)
    (hd0n : d0 ∉ ks) : ks.length < dungeons.length := by
  have h1 : ks.toFinset ⊆ dungeons.toFinset.erase d0 := by
    intro k hk
    rw [List.mem_toFinset] at hk
    rw [Finset.mem_erase]
    exact ⟨fun he => hd0n (he ▸ hk), List.mem_toFinset.mpr (hsub k hk)⟩
  calc ks.length = ks.toFinset.card := (List.toFinset_card_of_nodup hnd).symm
    _ ≤ (dungeons.toFinset.erase d0).card := Finset.card_le_card h1
    _ < dungeons.toFinset.card := Finset.card_erase_lt_of_mem (List.mem_toFinset.mpr hd0)
    _ ≤ dungeons.length := List.toFinset_card_le dungeons

theorem nodup_sub_lt_of_dup {ks dungeons : List String} (hnd : ks.Nodup)
    (hsub : ∀ k ∈ ks, k ∈ dungeons) (hdup : ¬ dungeons.Nodup) :
    ks.length < dungeons.length := by
  have h1 : ks.toFinset ⊆ dungeons.toFinset := by
    intro k hk
    rw [List.mem_toFinset] at hk
    exact List.mem_toFinset.mpr (hsub k hk)
  have h2 : dungeons.toFinset.card < dungeons.length := by
    rw [List.card_toFinset]
    refine lt_of_le_of_ne (List.Sublist.length_le (List.dedup_sublist dungeons)) ?_
    intro heq
    have : dungeons.dedup = dungeons := List.Sublist.eq_of_length (List.dedup_sublist dungeons) heq
    exact hdup (this ▸ List.nodup_dedup dungeons)
  calc ks.length = ks.toFinset.card := (List.toFinset_card_of_nodup hnd).symm
    _ ≤ dungeons.toFinset.card := Finset.card_le_card h1
    _ < dungeons.length := h2

/-! Lemmas for the date-collection loop of find_resilience_achievement_date. -/

theorem collect_eq_none_iff (repo : Repo) (cid : String) (minL : Nat) :
    ∀ dungeons : List String,
      collect_completion_dates repo cid minL dungeons = none ↔
        ∃ d ∈ dungeons, repo.get_min_completion_date cid d minL = none := by
  intro dungeons
  induction dungeons with
  | nil => simp [collect_completion_dates]
  | cons d ds ih =>
    simp only [collect_completion_dates]
    cases hd : repo.get_min_completion_date cid d minL with
    | none =>
      constructor
      · intro _; exact ⟨d, List.mem_cons_self _ _, hd⟩
      · intro _; rfl
    | some t =>
      cases hc : collect_completion_dates repo cid minL ds with
      | none =>
        constructor
        · intro _
          obtain ⟨d2, hd2, hgd2⟩ := ih.mp hc
          exact ⟨d2, List.mem_cons_of_mem _ hd2, hgd2⟩
        · intro _; rfl
      | some ts =>
        constructor
        · intro h; cases h
        · intro ⟨d2, hd2, hgd2⟩
          rcases List.mem_cons.mp hd2 with hceq | hd2'
          · rw [hceq] at hgd2; rw [hd] at hgd2; cases hgd2
          · have := ih.mpr ⟨d2, hd2', hgd2⟩
            rw [hc] at this; cases this

theorem collect_eq_some_map (repo : Repo) (cid : String) (minL : Nat) :
    ∀ (dungeons : List String) (dates : List String),
      collect_completion_dates repo cid minL dungeons = some dates →
        dungeons.map (fun d => repo.get_min_completion_date cid d minL) =
          dates.map some := by
  intro dungeons
  induction dungeons with
  | nil =>
    intro dates h
    simp only [collect_completion_dates, Option.some.injEq] at h
    rw [← h]
    rfl
  | cons d ds ih =>
    intro dates h
    simp only [collect_completion_dates] at h
    cases hd : repo.get_min_completion_date cid d minL with
    | none => rw [hd] at h; cases h
    | some t =>
      rw [hd] at h
      cases hc : collect_completion_dates repo cid minL ds with
      | none => rw [hc] at h; cases h
      | some ts =>
        rw [hc] at h
        simp only [Option.some.injEq] at h
        rw [← h, List.map_cons, List.map_cons, ih ts hc, hd]

theorem collect_isSome (repo : Repo) (cid : String) (minL : Nat) :
    ∀ dungeons : List String,
      (∀ d ∈ dungeons, repo.get_min_completion_date cid d minL ≠ none) →
        ∃ dates, collect_completion_dates repo cid minL dungeons = some dates := by
  intro dungeons
  induction dungeons with
  | nil => intro _; exact ⟨[], rfl⟩
  | cons d ds ih =>
    intro h
    simp only [collect_completion_dates]
    cases hd : repo.get_min_completion_date cid d minL with
    | none => exact absurd hd (h d (List.mem_cons_self _ _))
    | some t =>
      obtain ⟨ts, hts⟩ := ih (fun d2 hd2 => h d2 (List.mem_cons_of_mem _ hd2))
      rw [hts]
      exact ⟨t :: ts, rfl⟩

/-! Claim theorems for the resilience calculator. -/

/-- C2: for every character, timestamp, non-empty dungeon list and level
bounds, if some dungeon in the list has no completion by the character with
difficulty in [min_level, max_level] and first completion strictly before the
query timestamp, calculate_resilience_level returns 0 regardless of the other
dungeons. -/
theorem calculate_resilience_zero_of_missing_dungeon (repo : Repo) (cid ts : String)
    (dungeons : List String) (maxL minL : Nat) (d0 : String)
    (hne : dungeons ≠ []) (hd0 : d0 ∈ dungeons)
    (hmiss : ∀ comp ∈ repo.charDungeonLevels cid d0, ¬ Qualifying minL maxL ts comp) :
    calculate_resilience_level repo cid ts dungeons maxL minL = some 0 := by
  have hbest0 : repo.bestLevel cid d0 maxL minL ts = 0 :=
    bestLevel_zero_of_none repo cid d0 maxL minL ts hmiss
  have hlen : (repo.get_max_level_by_dungeon cid dungeons maxL minL ts).length <
      dungeons.length := by
    have h := nodup_sub_missing_lt (gml_keys_nodup repo cid maxL minL ts dungeons)
      (fun k hk => gml_keys_sub hk) hd0 (gml_not_key repo cid maxL minL ts dungeons d0 hbest0)
    rwa [List.length_map] at h
  simp only [calculate_resilience_level]
  rw [if_pos hlen]

/-- C10: a duplicated dungeon name in the list forces
calculate_resilience_level to return 0 for every character and timestamp,
because the per-dungeon maxima dict has fewer entries than the list. -/
theorem calculate_resilience_zero_of_dup (repo : Repo) (cid ts : String)
    (dungeons : List String) (maxL minL : Nat) (hdup : ¬ dungeons.Nodup) :
    calculate_resilience_level repo cid ts dungeons maxL minL = some 0 := by
  have hlen : (repo.get_max_level_by_dungeon cid dungeons maxL minL ts).length <
      dungeons.length := by
    have h := nodup_sub_lt_of_dup (gml_keys_nodup repo cid maxL minL ts dungeons)
      (fun k hk => gml_keys_sub hk) hdup
    rwa [List.length_map] at h
  simp only [calculate_resilience_level]
  rw [if_pos hlen]

/-- C9: for every character, timestamp, non-empty dungeon list and bounds
min_level <= max_level, calculate_resilience_level returns a value that is 0
or lies in [min_level, max_level]. -/
theorem calculate_resilience_range (repo : Repo) (cid ts : String)
    (dungeons : List String) (maxL minL : Nat)
    (hne : dungeons ≠ []) (hlm : minL ≤ maxL) :
    ∃ v, calculate_resilience_level repo cid ts dungeons maxL minL = some v ∧
      (v = 0 ∨ (minL ≤ v ∧ v ≤ maxL)) := by
  by_cases hlen : (repo.get_max_level_by_dungeon cid dungeons maxL minL ts).length <
      dungeons.length
  · refine ⟨0, ?_, Or.inl rfl⟩
    simp only [calculate_resilience_level]
    rw [if_pos hlen]
  · have hgne : repo.get_max_level_by_dungeon cid dungeons maxL minL ts ≠ [] := by
      intro h
      rw [h] at hlen
      exact hne (List.length_eq_zero.mp (Nat.le_zero.mp (le_of_not_lt hlen)))
    have hvne : (repo.get_max_level_by_dungeon cid dungeons maxL minL ts).map Prod.snd ≠ [] :=
      fun h => hgne (List.map_eq_nil.mp h)
    obtain ⟨m, hm⟩ := listMinNat_isSome hvne
    refine ⟨m, ?_, ?_⟩
    · simp only [calculate_resilience_level]
      rw [if_neg hlen]
      exact hm
    · right
      rcases List.mem_map.mp (listMinNat_mem hm) with ⟨p, hp, hpm⟩
      rcases gml_mem hp with ⟨d, _, hpd, hpos⟩
      have hbm : repo.bestLevel cid d maxL minL ts = m := by
        rw [hpd] at hpm
        exact hpm
      obtain ⟨comp, _, hq, hlvl⟩ := bestLevel_pos_src repo cid d maxL minL ts hpos
      rw [hbm] at hlvl
      exact ⟨hlvl ▸ hq.1, hlvl ▸ hq.2.1⟩

/-- C1: for every character, timestamp, non-empty duplicate-free dungeon list
and bounds min_level <= max_level, if every listed dungeon has a qualifying
completion (level within the bounds, first completed strictly before the
timestamp), calculate_resilience_level returns the minimum over the dungeons
of the per-dungeon maximum qualifying level; the second conjunct exhibits
bestLevel as exactly that per-dungeon maximum. -/
theorem calculate_resilience_min_of_maxima (repo : Repo) (cid ts : String)
    (dungeons : List String) (maxL minL : Nat)
    (hne : dungeons ≠ []) (hnd : dungeons.Nodup) (hlm : minL ≤ maxL)
    (hq : ∀ d ∈ dungeons, ∃ comp ∈ repo.charDungeonLevels cid d,
      Qualifying minL maxL ts comp) :
    calculate_resilience_level repo cid ts dungeons maxL minL =
        listMinNat (dungeons.map (fun d => repo.bestLevel cid d maxL minL ts)) ∧
      ∀ d ∈ dungeons,
        (∃ comp ∈ repo.charDungeonLevels cid d, Qualifying minL maxL ts comp ∧
          comp.difficulty_level = repo.bestLevel cid d maxL minL ts) ∧
        ∀ comp ∈ repo.charDungeonLevels cid d, Qualifying minL maxL ts comp →
          comp.difficulty_level ≤ repo.bestLevel cid d maxL minL ts := by
  constructor
  · by_cases hallpos : ∀ d ∈ dungeons, 0 < repo.bestLevel cid d maxL minL ts
    · have hgml := gml_complete repo cid maxL minL ts dungeons hnd hallpos
      simp only [calculate_resilience_level]
      rw [hgml, List.length_map, if_neg (lt_irrefl dungeons.length), List.map_map]
      rfl
    · push_neg at hallpos
      obtain ⟨d0, hd0, hz⟩ := hallpos
      have hbest0 : repo.bestLevel cid d0 maxL minL ts = 0 := Nat.le_zero.mp hz
      have hlhs : calculate_resilience_level repo cid ts dungeons maxL minL = some 0 := by
        have hlen : (repo.get_max_level_by_dungeon cid dungeons maxL minL ts).length <
            dungeons.length := by
          have h := nodup_sub_missing_lt (gml_keys_nodup repo cid maxL minL ts dungeons)
            (fun k hk => gml_keys_sub hk) hd0
            (gml_not_key repo cid maxL minL ts dungeons d0 hbest0)
          rwa [List.length_map] at h
        simp only [calculate_resilience_level]
        rw [if_pos hlen]
      have hmapne : dungeons.map (fun d => repo.bestLevel cid d maxL minL ts) ≠ [] := by
        intro h
        exact hne (List.map_eq_nil.mp h)
      obtain ⟨m, hm⟩ := listMinNat_isSome hmapne
      have h0mem : (0 : Nat) ∈ dungeons.map (fun d => repo.bestLevel cid d maxL minL ts) :=
        List.mem_map.mpr ⟨d0, hd0, hbest0⟩
      have hm0 : m = 0 := Nat.le_zero.mp (listMinNat_le hm 0 h0mem)
      rw [hlhs, hm, hm0]
  · intro d hd
    refine ⟨?_, fun comp hcm hqc => bestLevel_qual_le repo cid d maxL minL ts hcm hqc⟩
    obtain ⟨comp, hcm, hqc⟩ := hq d hd
    rcases Nat.eq_zero_or_pos (repo.bestLevel cid d maxL minL ts) with hz | hp
    · have hle := bestLevel_qual_le repo cid d maxL minL ts hcm hqc
      rw [hz] at hle
      exact ⟨comp, hcm, hqc, by rw [hz]; exact Nat.le_zero.mp hle⟩
    · exact bestLevel_pos_src repo cid d maxL minL ts hp

/-- C8 counterexample: with an empty dungeon list the code reaches Python's
min()/max() on an empty sequence, modelled as none; it does not return 0
(respectively None). -/
theorem empty_dungeon_list_counterexample :
    calculate_resilience_level ⟨[], []⟩ "c" "t" [] 25 18 ≠ some 0 ∧
      find_resilience_achievement_date ⟨[], []⟩ "c" 18 [] ≠ some none := by
  exact ⟨by decide, by decide⟩

/-- C8 amended: with an empty dungeon list, calculate_resilience_level
reaches min() of an empty sequence and find_resilience_achievement_date
reaches max() of an empty sequence; both raise ValueError (modelled as none)
instead of returning 0 respectively None. -/
theorem empty_dungeon_list_raises (repo : Repo) (cid ts : String) (maxL minL : Nat) :
    calculate_resilience_level repo cid ts [] maxL minL = none ∧
      find_resilience_achievement_date repo cid minL [] = none :=
  ⟨rfl, rfl⟩

/-- C3: find_resilience_achievement_date returns None exactly when some
dungeon has no completion at difficulty >= min_level; otherwise it returns
the maximum over the dungeons of the earliest qualifying first-completion
timestamp, truncated to its day prefix (the part before the first 'T'). -/
theorem find_achievement_date_spec (repo : Repo) (cid : String) (minL : Nat)
    (dungeons : List String) (hne : dungeons ≠ []) :
    (find_resilience_achievement_date repo cid minL dungeons = some none ↔
      ∃ d ∈ dungeons, ∀ comp ∈ repo.charDungeonLevels cid d,
        comp.difficulty_level < minL) ∧
    ((∀ d ∈ dungeons, ∃ comp ∈ repo.charDungeonLevels cid d,
        minL ≤ comp.difficulty_level) →
      ∃ (dates : List String) (latest : String),
        dungeons.map (fun d => repo.get_min_completion_date cid d minL) =
          dates.map some ∧
        (∀ d ∈ dungeons, ∀ e : String,
          repo.get_min_completion_date cid d minL = some e →
          (∃ comp ∈ repo.charDungeonLevels cid d, minL ≤ comp.difficulty_level ∧
            comp.first_completed = e) ∧
          ∀ comp ∈ repo.charDungeonLevels cid d, minL ≤ comp.difficulty_level →
            strLt comp.first_completed e = false) ∧
        listMaxStr dates = some latest ∧ latest ∈ dates ∧
        (∀ t ∈ dates, strLt latest t = false) ∧
        find_resilience_achievement_date repo cid minL dungeons =
          some (some (dayOf latest))) := by
  constructor
  · have hfind_iff : find_resilience_achievement_date repo cid minL dungeons = some none ↔
        collect_completion_dates repo cid minL dungeons = none := by
      constructor
      · intro h
        cases hc : collect_completion_dates repo cid minL dungeons with
        | none => rfl
        | some dates =>
          simp only [find_resilience_achievement_date, hc] at h
          cases hmax : listMaxStr dates with
          | none => rw [hmax] at h; cases h
          | some latest =>
            rw [hmax] at h
            simp only [Option.some.injEq] at h
            cases h
      · intro h
        simp only [find_resilience_achievement_date, h]
    rw [hfind_iff, collect_eq_none_iff]
    constructor
    · intro ⟨d, hd, hgd⟩
      exact ⟨d, hd, fun comp hcm =>
        lt_of_not_le ((gmcd_none_iff repo cid d minL).mp hgd comp hcm)⟩
    · intro ⟨d, hd, hgd⟩
      exact ⟨d, hd, (gmcd_none_iff repo cid d minL).mpr
        (fun comp hcm hle => absurd hle (not_le_of_lt (hgd comp hcm)))⟩
  · intro hall
    have hnone : ∀ d ∈ dungeons, repo.get_min_completion_date cid d minL ≠ none := by
      intro d hd hcon
      obtain ⟨comp, hcm, hlvl⟩ := hall d hd
      exact (gmcd_none_iff repo cid d minL).mp hcon comp hcm hlvl
    obtain ⟨dates, hdates⟩ := collect_isSome repo cid minL dungeons hnone
    have hmap := collect_eq_some_map repo cid minL dungeons dates hdates
    have hdne : dates ≠ [] := by
      intro h
      subst h
      rw [List.map_nil] at hmap
      exact hne (List.map_eq_nil_iff.mp hmap)
    obtain ⟨latest, hmax⟩ := listMaxStr_isSome hdne
    obtain ⟨hlmem, hlbd⟩ := listMaxStr_spec hmax
    refine ⟨dates, latest, hmap, ?_, hmax, hlmem, hlbd, ?_⟩
    · intro d hd e he
      exact ⟨gmcd_some_src repo cid d minL e he, gmcd_some_lb repo cid d minL e he⟩
    · simp only [find_resilience_achievement_date, hdates, hmax]

/-! Characterization of build_edges. -/

theorem has_higher_iff (repo : Repo) (cid d : String) (lvl : Nat) (before : String) :
    repo.has_higher_completion cid d lvl before = true ↔
      ∃ c2 ∈ repo.charDungeonLevels cid d, lvl < c2.difficulty_level ∧
        strLt c2.first_completed before = true := by
  unfold Repo.has_higher_completion
  rw [List.any_eq_true]
  constructor
  · rintro ⟨c2, hc2, hb⟩
    rw [Bool.and_eq_true, decide_eq_true_iff] at hb
    exact ⟨c2, hc2, hb⟩
  · rintro ⟨c2, hc2, h1, h2⟩
    exact ⟨c2, hc2, by rw [Bool.and_eq_true, decide_eq_true_iff]; exact ⟨h1, h2⟩⟩

theorem resilienceAtLeast_iff {repo : Repo} {other ts : String} {dungeons : List String}
    {maxL t : Nat} :
    resilienceAtLeast repo other ts dungeons maxL t = true ↔
      ∃ v, calculate_resilience_level repo other ts dungeons maxL 18 = some v ∧
        t ≤ v := by
  unfold resilienceAtLeast
  cases hc : calculate_resilience_level repo other ts dungeons maxL 18 with
  | none => simp
  | some v => simp

theorem mem_rosterEdges {repo : Repo} {dungeons : List String} {t m : Nat}
    {cid d : String} {comp : DungeonCompletion} {e : PropagationEdge} :
    e ∈ rosterEdges repo dungeons t m cid d comp ↔
      ∃ other ∈ repo.get_roster comp.run_id, other ≠ cid ∧
        resilienceAtLeast repo other comp.first_completed dungeons m t = true ∧
        e = ⟨other, cid, d, comp.run_id⟩ := by
  unfold rosterEdges
  rw [List.mem_filterMap]
  constructor
  · rintro ⟨other, ho, hf⟩
    by_cases h1 : (other == cid) = true
    · rw [if_pos h1] at hf; cases hf
    · rw [if_neg h1] at hf
      by_cases h2 : resilienceAtLeast repo other comp.first_completed dungeons m t = true
      · rw [if_pos h2] at hf
        exact ⟨other, ho, fun he => h1 (beq_iff_eq.mpr he), h2, (Option.some.inj hf).symm⟩
      · rw [if_neg h2] at hf; cases hf
  · rintro ⟨other, ho, hne, hra, he⟩
    refine ⟨other, ho, ?_⟩
    rw [if_neg (fun h => hne (beq_iff_eq.mp h)), if_pos hra, he]

theorem characterDungeonEdges_none (repo : Repo) (dungeons : List String) (t m : Nat)
    (cid d : String) (hc : repo.get_completion cid d t = none) :
    characterDungeonEdges repo dungeons t m cid d = [] := by
  unfold characterDungeonEdges
  rw [hc]

theorem characterDungeonEdges_some (repo : Repo) (dungeons : List String) (t m : Nat)
    (cid d : String) (comp : DungeonCompletion)
    (hc : repo.get_completion cid d t = some comp) :
    characterDungeonEdges repo dungeons t m cid d =
      if repo.has_higher_completion cid d t comp.first_completed = true then []
      else rosterEdges repo dungeons t m cid d comp := by
  unfold characterDungeonEdges
  rw [hc]

theorem mem_characterDungeonEdges {repo : Repo} {dungeons : List String} {t m : Nat}
    {cid d : String} {e : PropagationEdge} :
    e ∈ characterDungeonEdges repo dungeons t m cid d ↔
      ∃ comp, repo.get_completion cid d t = some comp ∧
        repo.has_higher_completion cid d t comp.first_completed = false ∧
        e ∈ rosterEdges repo dungeons t m cid d comp := by
  cases hc : repo.get_completion cid d t with
  | none =>
    rw [characterDungeonEdges_none repo dungeons t m cid d hc]
    constructor
    · intro h; cases h
    · rintro ⟨comp, hcomp, _, _⟩
      cases hcomp
  | some comp =>
    rw [characterDungeonEdges_some repo dungeons t m cid d comp hc]
    cases hh : repo.has_higher_completion cid d t comp.first_completed with
    | true =>
      rw [if_pos rfl]
      constructor
      · intro h; cases h
      · rintro ⟨comp2, hcomp2, hh2, _⟩
        rw [← Option.some.inj hcomp2] at hh2
        rw [hh] at hh2
        cases hh2
    | false =>
      rw [if_neg Bool.false_ne_true]
      constructor
      · intro h
        exact ⟨comp, rfl, hh, h⟩
      · rintro ⟨comp2, hcomp2, _, h⟩
        rw [Option.some.inj hcomp2]
        exact h

theorem mem_characterEdges_iff {repo : Repo} {dungeons : List String} {t m : Nat}
    {c : String} {e : PropagationEdge} :
    e ∈ characterEdges repo dungeons t m c ↔
      ∃ d ∈ dungeons, ∃ comp, repo.get_completion c d t = some comp ∧
        repo.has_higher_completion c d t comp.first_completed = false ∧
        e.source ∈ repo.get_roster comp.run_id ∧ e.source ≠ c ∧
        resilienceAtLeast repo e.source comp.first_completed dungeons m t = true ∧
        e = ⟨e.source, c, d, comp.run_id⟩ := by
  unfold characterEdges
  rw [List.mem_flatMap]
  constructor
  · rintro ⟨d, hd, hde⟩
    obtain ⟨comp, h1, h2, h3⟩ := mem_characterDungeonEdges.mp hde
    obtain ⟨other, ho, hne, hra, he⟩ := mem_rosterEdges.mp h3
    have hsrc : e.source = other := by rw [he]
    refine ⟨d, hd, comp, h1, h2, ?_, ?_, ?_, ?_⟩
    · rw [hsrc]; exact ho
    · rw [hsrc]; exact hne
    · rw [hsrc]; exact hra
    · rw [he]
  · rintro ⟨d, hd, comp, h1, h2, h3, h4, h5, h6⟩
    exact ⟨d, hd, mem_characterDungeonEdges.mpr
      ⟨comp, h1, h2, mem_rosterEdges.mpr ⟨e.source, h3, h4, h5, h6⟩⟩⟩

theorem foldl_build (repo : Repo) (rts : List (String × String))
    (dungeons : List String) (t m : Nat) :
    ∀ (chars : List String) (acc : List PropagationEdge × List PropagationEdge),
      chars.foldl (buildStep repo rts dungeons t m) acc =
        (acc.1 ++ (chars.filter (fun c => isResilientKey rts c)).flatMap
            (characterEdges repo dungeons t m),
         acc.2 ++ (chars.filter (fun c => !(isResilientKey rts c))).flatMap
            (characterEdges repo dungeons t m)) := by
  intro chars
  induction chars with
  | nil =>
    intro acc
    simp only [List.foldl_nil, List.filter_nil, List.flatMap_nil, List.append_nil]
  | cons c cs ih =>
    intro acc
    rw [List.foldl_cons, ih]
    cases hk : isResilientKey rts c with
    | true =>
      simp [buildStep, hk, List.filter_cons, List.flatMap_cons, List.append_assoc]
    | false =>
      simp [buildStep, hk, List.filter_cons, List.flatMap_cons, List.append_assoc]

theorem build_edges_eq (repo : Repo) (characters : List String)
    (rts : List (String × String)) (dungeons : List String) (t m : Nat) :
    build_edges repo characters rts dungeons t m =
      ((characters.filter (fun c => isResilientKey rts c)).flatMap
          (characterEdges repo dungeons t m),
       (characters.filter (fun c => !(isResilientKey rts c))).flatMap
          (characterEdges repo dungeons t m)) := by
  unfold build_edges
  rw [foldl_build]
  simp only [List.nil_append]

/-- Emission condition of build_edges: an edge e is produced for target
character c in characters when some dungeon d of the list has a completion
by c at exactly the target level that is not superseded, e's source is
another member of that completion's roster, and the source's resilience
level at the completion instant (over the full dungeon list, with the
default min_level 18) reaches the target level. -/
def EmittedEdge (repo : Repo) (characters : List String) (dungeons : List String)
    (target_level max_level : Nat) (e : PropagationEdge) : Prop :=
  ∃ c ∈ characters, ∃ d ∈ dungeons, ∃ comp,
    repo.get_completion c d target_level = some comp ∧
    repo.has_higher_completion c d target_level comp.first_completed = false ∧
    e.source ∈ repo.get_roster comp.run_id ∧ e.source ≠ c ∧
    (∃ v, calculate_resilience_level repo e.source comp.first_completed dungeons
      max_level 18 = some v ∧ target_level ≤ v) ∧
    e = ⟨e.source, c, d, comp.run_id⟩

/-- C4: a target-level completion is skipped by build_edges (contributes no
edges) exactly when the character has a strictly higher completion in the
same dungeon with a strictly earlier first-completion timestamp
(supersession); otherwise the completion's roster is scanned. -/
theorem supersession_skip (repo : Repo) (dungeons : List String) (t m : Nat)
    (cid d : String) (comp : DungeonCompletion)
    (hc : repo.get_completion cid d t = some comp) :
    ((∃ c2 ∈ repo.charDungeonLevels cid d, t < c2.difficulty_level ∧
        strLt c2.first_completed comp.first_completed = true) →
      characterDungeonEdges repo dungeons t m cid d = []) ∧
    (¬ (∃ c2 ∈ repo.charDungeonLevels cid d, t < c2.difficulty_level ∧
        strLt c2.first_completed comp.first_completed = true) →
      characterDungeonEdges repo dungeons t m cid d =
        rosterEdges repo dungeons t m cid d comp) := by
  constructor
  · intro hsup
    rw [characterDungeonEdges_some repo dungeons t m cid d comp hc]
    rw [if_pos ((has_higher_iff repo cid d t comp.first_completed).mpr hsup)]
  · intro hsup
    rw [characterDungeonEdges_some repo dungeons t m cid d comp hc]
    rw [if_neg (fun h => hsup ((has_higher_iff repo cid d t comp.first_completed).mp h))]

/-- C5: membership of an edge in the buckets returned by build_edges: an
edge lands in resilient_edges exactly when it is emitted and its target
character is a key of resilient_timestamps, and in non_resilient_edges
exactly when it is emitted and its target is not a key; the bucket depends
only on the target character's key membership. -/
theorem build_edges_bucket_spec (repo : Repo) (characters : List String)
    (rts : List (String × String)) (dungeons : List String) (t m : Nat)
    (e : PropagationEdge) :
    (e ∈ (build_edges repo characters rts dungeons t m).1 ↔
      EmittedEdge repo characters dungeons t m e ∧ isResilientKey rts e.target = true) ∧
    (e ∈ (build_edges repo characters rts dungeons t m).2 ↔
      EmittedEdge repo characters dungeons t m e ∧ isResilientKey rts e.target = false) := by
  rw [build_edges_eq]
  constructor
  · rw [List.mem_flatMap]
    constructor
    · rintro ⟨c, hcf, hce⟩
      obtain ⟨hc, hk⟩ := List.mem_filter.mp hcf
      obtain ⟨d, hd, comp, h1, h2, h3, h4, h5, h6⟩ := mem_characterEdges_iff.mp hce
      have htc : e.target = c := by rw [h6]
      refine ⟨⟨c, hc, d, hd, comp, h1, h2, h3, h4, resilienceAtLeast_iff.mp h5, h6⟩, ?_⟩
      rw [htc]; exact hk
    · rintro ⟨⟨c, hc, d, hd, comp, h1, h2, h3, h4, h5, h6⟩, hk⟩
      have htc : e.target = c := by rw [h6]
      rw [htc] at hk
      exact ⟨c, List.mem_filter.mpr ⟨hc, hk⟩, mem_characterEdges_iff.mpr
        ⟨d, hd, comp, h1, h2, h3, h4, resilienceAtLeast_iff.mpr h5, h6⟩⟩
  · rw [List.mem_flatMap]
    constructor
    · rintro ⟨c, hcf, hce⟩
      obtain ⟨hc, hk⟩ := List.mem_filter.mp hcf
      rw [Bool.not_eq_true'] at hk
      obtain ⟨d, hd, comp, h1, h2, h3, h4, h5, h6⟩ := mem_characterEdges_iff.mp hce
      have htc : e.target = c := by rw [h6]
      refine ⟨⟨c, hc, d, hd, comp, h1, h2, h3, h4, resilienceAtLeast_iff.mp h5, h6⟩, ?_⟩
      rw [htc]; exact hk
    · rintro ⟨⟨c, hc, d, hd, comp, h1, h2, h3, h4, h5, h6⟩, hk⟩
      have htc : e.target = c := by rw [h6]
      rw [htc] at hk
      exact ⟨c, List.mem_filter.mpr ⟨hc, by rw [Bool.not_eq_true']; exact hk⟩,
        mem_characterEdges_iff.mpr
          ⟨d, hd, comp, h1, h2, h3, h4, resilienceAtLeast_iff.mpr h5, h6⟩⟩

/-- C6: every edge in either bucket returned by build_edges joins two
distinct characters, its source belongs to the roster of its run, and its
run is the run of the target character's completion of the edge's dungeon at
exactly the target level. -/
theorem build_edges_invariants (repo : Repo) (characters : List String)
    (rts : List (String × String)) (dungeons : List String) (t m : Nat) :
    ∀ e : PropagationEdge,
      (e ∈ (build_edges repo characters rts dungeons t m).1 ∨
        e ∈ (build_edges repo characters rts dungeons t m).2) →
      e.source ≠ e.target ∧ e.source ∈ repo.get_roster e.run_id ∧
        ∃ comp, repo.get_completion e.target e.dungeon t = some comp ∧
          comp.run_id = e.run_id := by
  intro e he
  rw [build_edges_eq] at he
  have hce : ∃ c, e ∈ characterEdges repo dungeons t m c := by
    rcases he with h | h
    · obtain ⟨c, _, hc⟩ := List.mem_flatMap.mp h
      exact ⟨c, hc⟩
    · obtain ⟨c, _, hc⟩ := List.mem_flatMap.mp h
      exact ⟨c, hc⟩
  obtain ⟨c, hc⟩ := hce
  obtain ⟨d, _, comp, h1, _, h3, h4, _, h6⟩ := mem_characterEdges_iff.mp hc
  have htc : e.target = c := by rw [h6]
  have hdd : e.dungeon = d := by rw [h6]
  have hrr : e.run_id = comp.run_id := by rw [h6]
  refine ⟨?_, ?_, comp, ?_, hrr.symm⟩
  · rw [htc]; exact h4
  · rw [hrr]; exact h3
  · rw [htc, hdd]; exact h1

/-- C7: build_edges is a pure function of its arguments in this embedding;
two invocations with identical arguments over the same repository return
equal pairs of edge lists, hence equal unordered multisets as well. -/
theorem build_edges_deterministic (repo : Repo) (characters : List String)
    (rts : List (String × String)) (dungeons : List String) (t m : Nat) :
    build_edges repo characters rts dungeons t m =
        build_edges repo characters rts dungeons t m ∧
      ((build_edges repo characters rts dungeons t m).1 : Multiset PropagationEdge) =
        ((build_edges repo characters rts dungeons t m).1 : Multiset PropagationEdge) ∧
      ((build_edges repo characters rts dungeons t m).2 : Multiset PropagationEdge) =
        ((build_edges repo characters rts dungeons t m).2 : Multiset PropagationEdge) :=
  ⟨rfl, rfl, rfl⟩

/-! Concrete repositories for witness instances. -/

/-- Repository with one character A owning qualifying completions in two
dungeons D and E. -/
def repoCalcEx : Repo :=
  ⟨[⟨"A", "D", 20, "s1", "r1"⟩, ⟨"A", "E", 21, "s2", "r2"⟩], []⟩

/-- Repository where character B's level-20 completion of D is preceded by a
level-22 completion of D (supersession). -/
def repoSupersedeEx : Repo :=
  ⟨[⟨"B", "D", 20, "s5", "r1"⟩, ⟨"B", "D", 22, "s3", "r3"⟩], [("r1", ["A", "B"])]⟩

/-- Repository where A (already at level 20 in D) shares run r1 with B, whose
level-20 completion of D happens later; build_edges emits edge A -> B. -/
def repoEdgeEx : Repo :=
  ⟨[⟨"A", "D", 20, "s1", "r0"⟩, ⟨"B", "D", 20, "s5", "r1"⟩], [("r1", ["A", "B"])]⟩

/-- Edge produced by build_edges on repoEdgeEx. -/
def edgeEx : PropagationEdge := ⟨"A", "B", "D", "r1"⟩

/-! Witness instances. -/

/-- Witness for C1 at a concrete repository and dungeon list. -/
theorem calculate_resilience_min_of_maxima_witness :
    (["D", "E"] : List String) ≠ [] ∧
      calculate_resilience_level repoCalcEx "A" "s9" ["D", "E"] 25 18 =
        listMinNat ((["D", "E"] : List String).map
          (fun d => repoCalcEx.bestLevel "A" d 25 18 "s9")) :=
  ⟨by decide, (calculate_resilience_min_of_maxima repoCalcEx "A" "s9" ["D", "E"] 25 18
    (by decide) (by decide) (by decide) (by decide)).1⟩

/-- Witness for C2 at a concrete repository: dungeon F has no completion. -/
theorem calculate_resilience_zero_of_missing_dungeon_witness :
    ("F" : String) ∈ (["D", "F"] : List String) ∧
      calculate_resilience_level repoCalcEx "A" "s9" ["D", "F"] 25 18 = some 0 :=
  ⟨by decide, calculate_resilience_zero_of_missing_dungeon repoCalcEx "A" "s9" ["D", "F"]
    25 18 "F" (by decide) (by decide) (by decide)⟩

/-- Witness for C3 at a concrete repository. -/
theorem find_achievement_date_spec_witness :
    (["D", "E"] : List String) ≠ [] ∧
      (find_resilience_achievement_date repoCalcEx "A" 18 ["D", "E"] = some none ↔
        ∃ d ∈ (["D", "E"] : List String),
          ∀ comp ∈ repoCalcEx.charDungeonLevels "A" d, comp.difficulty_level < 18) :=
  ⟨by decide, (find_achievement_date_spec repoCalcEx "A" 18 ["D", "E"] (by decide)).1⟩

/-- Witness for C4 at a concrete repository with a superseded completion. -/
theorem supersession_skip_witness :
    repoSupersedeEx.get_completion "B" "D" 20 = some ⟨"B", "D", 20, "s5", "r1"⟩ ∧
      characterDungeonEdges repoSupersedeEx ["D"] 20 25 "B" "D" = [] :=
  ⟨by decide, (supersession_skip repoSupersedeEx ["D"] 20 25 "B" "D"
    ⟨"B", "D", 20, "s5", "r1"⟩ (by decide)).1 (by decide)⟩

/-- Witness for C6 at a concrete emitted edge. -/
theorem build_edges_invariants_witness :
    edgeEx.source ≠ edgeEx.target ∧
      edgeEx.source ∈ repoEdgeEx.get_roster edgeEx.run_id ∧
      ∃ comp, repoEdgeEx.get_completion edgeEx.target edgeEx.dungeon 20 = some comp ∧
        comp.run_id = edgeEx.run_id :=
  build_edges_invariants repoEdgeEx ["B"] [] ["D"] 20 25 edgeEx (Or.inr (by decide))

/-- Witness for C9 at a concrete repository. -/
theorem calculate_resilience_range_witness :
    (["D", "E"] : List String) ≠ [] ∧ 18 ≤ 25 ∧
      ∃ v, calculate_resilience_level repoCalcEx "A" "s9" ["D", "E"] 25 18 = some v ∧
        (v = 0 ∨ (18 ≤ v ∧ v ≤ 25)) :=
  ⟨by decide, by decide,
    calculate_resilience_range repoCalcEx "A" "s9" ["D", "E"] 25 18 (by decide) (by decide)⟩

/-- Witness for C10 at a concrete duplicated dungeon list. -/
theorem calculate_resilience_zero_of_dup_witness :
    ¬ (["D", "D"] : List String).Nodup ∧
      calculate_resilience_level repoCalcEx "A" "s9" ["D", "D"] 25 18 = some 0 :=
  ⟨by decide, calculate_resilience_zero_of_dup repoCalcEx "A" "s9" ["D", "D"] 25 18 (by decide)⟩
